import Mathlib

/-!
# Domain filter match (net/netfilter/xt_domainfilter.c)

A shallow embedding of the xtables match `domainfilter`: the wildcard matcher
`matchHost` with its helpers `endsWith` and `beginsWith`, the rule validation
`domainfilter_check` and the per-packet entry point `domainfilter_mt`.

C strings are lists of characters without their terminator; the terminator is
made explicit wherever the code can observe it (`charAt`, `strnlen`, `cstr?`).
A result `none` stands for an access outside the object that is read or
written. `size_t` is 64 bits wide and `unsigned int` 32 bits wide, as on the
arm64 target of this kernel.

The body of `matchHost` is embedded once, in `matchHostTraceWith`, over the way
its reads `rule[i]` are answered. `matchHostTrace` checks every read against the
pattern string and is `none` at a read outside of it. `matchHostTraceAt` is the
run on the machine, where the read at index 2^64 - 1 finds the byte that lies
before the pattern and the function goes on with it. The two agree on every
non-empty pattern (`matchHostTraceAt_eq`).
-/

namespace DomainFilter

/-- The contents of a C string, terminator excluded. -/
abbrev CStr := List Char

/-- The string terminator. -/
def NUL : Char := Char.ofNat 0

/-- Line 27: `static const char WILDCARD = '%';`. -/
def WILDCARD : Char := '%'

/-- The errno value E2BIG. -/
def E2BIG : Int := 7

/-- The errno value EINVAL. -/
def EINVAL : Int := 22

/-- Largest value of a C `int`. -/
def INT_MAX : Nat := 2147483647

/-- Number of values of a `size_t`. -/
def SIZE_MOD : Nat := 2 ^ 64

/-- Number of values of an `unsigned int`. -/
def UINT_MOD : Nat := 2 ^ 32

/-- Subtraction of two `size_t` values, wrapping around. -/
def size_sub (a b : Nat) : Nat := (a % SIZE_MOD + SIZE_MOD - b % SIZE_MOD) % SIZE_MOD

/-- The C library `strlen`. -/
def strlen (s : CStr) : Nat := s.length

/-- The read `s[i]` of a C string: its characters, then its terminator; any
other index lies outside the string. -/
def charAt (s : CStr) (i : Nat) : Option Char := (s ++ [NUL]).get? i

/-- The C library `strncmp`: compares at most `n` characters, a string that
ends first being the smaller one. -/
def strncmp : CStr → CStr → Nat → Int
  | _, _, 0 => 0
  | [], [], _ + 1 => 0
  | [], _ :: _, _ + 1 => -1
  | _ :: _, [], _ + 1 => 1
  | a :: as, b :: bs, n + 1 =>
    if a = b then strncmp as bs n else if a < b then -1 else 1

/-- The C library `strcmp`. -/
def strcmp : CStr → CStr → Int
  | [], [] => 0
  | [], _ :: _ => -1
  | _ :: _, [] => 1
  | a :: as, b :: bs =>
    if a = b then strcmp as bs else if a < b then -1 else 1

/-- The loop of the kernel's `strstr`: slide over `s1` while it is at least as
long as `s2`, comparing the first `strlen s2` bytes. -/
def strstr_loop : CStr → CStr → Option CStr
  | [], s2 => if s2.length = 0 then some [] else none
  | c :: t, s2 =>
    if (c :: t).length ≥ s2.length then
      if (c :: t).take s2.length = s2 then some (c :: t) else strstr_loop t s2
    else none

/-- The C library `strstr`: the first place of `s1` at which `s2` occurs (as
the rest of `s1` from there on), or `none` for a NULL result. -/
def strstr (s1 s2 : CStr) : Option CStr :=
  if s2.length = 0 then some s1 else strstr_loop s1 s2

/-- The C library `strnlen` over a buffer: the number of characters before the
first terminator among the first `n` bytes, and `n` when there is none. -/
def strnlen (buf : List Char) (n : Nat) : Nat :=
  ((buf.take n).takeWhile (fun c => decide (c ≠ NUL))).length

/-- Modelled from the spec: the kernel's `strscpy(dest, src, count)` of
lib/string.c, which is not among the sources; a length-checked copy that
reports a failure when the source does not fit. It copies at most `count - 1`
characters of `src` into `dest`, a buffer of `cap` bytes, and terminates it. It
returns the number of characters copied, or `-E2BIG` when `count` is 0 or above
`INT_MAX`, or when `src` had to be truncated. The second component is the string
left in `dest` (meaningless when nothing was written). The result is `none` when
the bytes written do not fit in `cap`. -/
def strscpy (cap : Nat) (src : CStr) (count : Nat) : Option (Int × CStr) :=
  if count = 0 ∨ count > INT_MAX then some (-E2BIG, [])
  else if src.length < count then
    if src.length + 1 ≤ cap then some ((src.length : Int), src) else none
  else
    if count ≤ cap then some (-E2BIG, src.take (count - 1)) else none

/-- Lines 32-44: check if a given string is the ending substring of another.
The offset is held in an `unsigned int`. -/
def endsWith (host rule : CStr) : Bool :=
  let host_len := strlen host
  let rule_len := strlen rule
  if host_len ≥ rule_len then
    let off_set := (host_len - rule_len) % UINT_MOD
    strncmp (host.drop off_set) rule rule_len == 0
  else
    false

/-- Lines 49-58: check if a given string is the beginning substring of
another. -/
def beginsWith (host rule : CStr) : Bool :=
  let host_len := strlen host
  let rule_len := strlen rule
  if host_len ≥ rule_len then
    strncmp host rule rule_len == 0
  else
    false

/-- The arm of the `if` chain of `matchHost` that decides a call. -/
inductive Branch where
  | matchAll
  | bothEnds
  | leadingOnly
  | trailingOnly
  | exact
  deriving DecidableEq, Repr

/-- What one call of `matchHost` did: the arm taken, the `strscpy` call made
there (the count passed and the value returned), and the value returned. -/
structure Trace where
  branch : Branch
  copy : Option (Nat × Int)
  result : Bool
  deriving DecidableEq, Repr

/-- The read `s[i]` as the machine does it. Inside the string it is `charAt`.
The index 2^64 - 1, to which `rule_len - 1` wraps on an empty string, addresses
the byte just before the string, which is `before`. -/
def memAt (before : Char) (s : CStr) (i : Nat) : Option Char :=
  if i ≤ s.length then charAt s i
  else if i = SIZE_MOD - 1 then some before
  else none

/-- Lines 63-102: `matchHost`, with the arm taken and the `strscpy` call
recorded. `rd` answers the reads `rule[i]`, and `L` is
`XT_DOMAINFILTER_NAME_LEN`, the size of `substrRule`. -/
def matchHostTraceWith (rd : CStr → Nat → Option Char) (L : Nat) (rule host : CStr) :
    Option Trace :=
  let rule_len := strlen rule
  match rd rule 0 with
  | none => none
  | some r0 =>
    if rule_len = 1 ∧ r0 = WILDCARD then
      some ⟨Branch.matchAll, none, true⟩
    else if r0 = WILDCARD then
      match rd rule (size_sub rule_len 1) with
      | none => none
      | some rl =>
        if rl = WILDCARD then
          match strscpy L (rule.drop 1) (size_sub rule_len 1) with
          | none => none
          | some (ret, substrRule) =>
            if ret < 0 then
              some ⟨Branch.bothEnds, some (size_sub rule_len 1, ret), false⟩
            else
              some ⟨Branch.bothEnds, some (size_sub rule_len 1, ret),
                (strstr host substrRule).isSome⟩
        else
          match strscpy L (rule.drop 1) rule_len with
          | none => none
          | some (ret, substrRule) =>
            if ret < 0 then
              some ⟨Branch.leadingOnly, some (rule_len, ret), false⟩
            else
              some ⟨Branch.leadingOnly, some (rule_len, ret), endsWith host substrRule⟩
    else
      match rd rule (size_sub rule_len 1) with
      | none => none
      | some rl =>
        if rl = WILDCARD then
          match strscpy L rule rule_len with
          | none => none
          | some (ret, substrRule) =>
            if ret < 0 then
              some ⟨Branch.trailingOnly, some (rule_len, ret), false⟩
            else
              some ⟨Branch.trailingOnly, some (rule_len, ret), beginsWith host substrRule⟩
        else
          some ⟨Branch.exact, none,
            decide (strlen host = rule_len) && (strcmp host rule == 0)⟩

/-- Lines 63-102: `matchHost` with every read checked against the pattern
string: `none` when `rule[i]` is read outside of it. -/
def matchHostTrace (L : Nat) (rule host : CStr) : Option Trace :=
  matchHostTraceWith charAt L rule host

/-- Lines 63-102: `matchHost` as the machine runs it, `before` being the byte
that memory holds just before the pattern. -/
def matchHostTraceAt (before : Char) (L : Nat) (rule host : CStr) : Option Trace :=
  matchHostTraceWith (memAt before) L rule host

/-- Lines 63-102: check if the given host matches the rule. -/
def matchHost (L : Nat) (rule host : CStr) : Option Bool :=
  (matchHostTrace L rule host).map fun t => t.result

/-- Constants of `linux/netfilter/xt_domainfilter.h`, which is not among the
sources: the size of the name buffer and the two mode bits. -/
structure Header where
  XT_DOMAINFILTER_NAME_LEN : Nat
  XT_DOMAINFILTER_WHITE : Nat
  XT_DOMAINFILTER_BLACK : Nat
  deriving DecidableEq, Repr

/-- The match data of a rule, `struct xt_domainfilter_match_info`: the bytes of
the `domain_name` array and the flags. -/
structure xt_domainfilter_match_info where
  domain_name : List Char
  flags : Nat
  deriving DecidableEq, Repr

/-- What `domainfilter_mt` reads of a socket: the `domain_name` of its vendor
data, `none` for a NULL pointer. -/
structure sock where
  domain_name : Option CStr
  deriving DecidableEq, Repr

/-- The C string that starts a buffer: the bytes before its first terminator;
`none` when the buffer holds no terminator, so that reading it as a string
runs past its end. -/
def cstr? (buf : List Char) : Option CStr :=
  if NUL ∈ buf then some (buf.takeWhile (fun c => decide (c ≠ NUL))) else none

/-- Lines 104-113: `domainfilter_check`; `sizeof(info->domain_name)` is
`XT_DOMAINFILTER_NAME_LEN`. -/
def domainfilter_check (k : Header) (info : xt_domainfilter_match_info) : Int :=
  if strnlen info.domain_name k.XT_DOMAINFILTER_NAME_LEN = k.XT_DOMAINFILTER_NAME_LEN then
    -EINVAL
  else if info.flags &&& (k.XT_DOMAINFILTER_WHITE ||| k.XT_DOMAINFILTER_BLACK) = 0 then
    -EINVAL
  else
    0

/-- Lines 115-133: `domainfilter_mt`, over the function it calls at line 127.
`sk` is the result of `skb_to_full_sk(skb)`, `none` for NULL. -/
def domainfilter_mt_on (mh : CStr → CStr → Option Bool)
    (info : xt_domainfilter_match_info) (sk : Option sock) : Option Bool :=
  match sk with
  | none => some false
  | some s =>
    match s.domain_name with
    | some (c :: cs) =>
      match cstr? info.domain_name with
      | none => none
      | some rule => mh rule (c :: cs)
    | _ => some false

/-- Lines 115-133: `domainfilter_mt`. -/
def domainfilter_mt (k : Header) (info : xt_domainfilter_match_info)
    (sk : Option sock) : Option Bool :=
  domainfilter_mt_on (matchHost k.XT_DOMAINFILTER_NAME_LEN) info sk

/-- An instance of the header constants for the examples: a name buffer of 256
bytes, the allow bit 1 and the deny bit 2. -/
def samsungHeader : Header := ⟨256, 1, 2⟩

/-- A `domain_name` array of `n` bytes holding the string `s` and then
terminators. -/
def nameBuf (n : Nat) (s : String) : List Char :=
  s.toList ++ List.replicate (n - s.length) NUL

/-- The rule designates the allow mode: `flags & XT_DOMAINFILTER_WHITE` is
non-zero. -/
def allowMode (k : Header) (info : xt_domainfilter_match_info) : Prop :=
  info.flags &&& k.XT_DOMAINFILTER_WHITE ≠ 0

/-- The rule designates the deny mode: `flags & XT_DOMAINFILTER_BLACK` is
non-zero. -/
def denyMode (k : Header) (info : xt_domainfilter_match_info) : Prop :=
  info.flags &&& k.XT_DOMAINFILTER_BLACK ≠ 0

instance (k : Header) (info : xt_domainfilter_match_info) : Decidable (allowMode k info) := by
  unfold allowMode; infer_instance

instance (k : Header) (info : xt_domainfilter_match_info) : Decidable (denyMode k info) := by
  unfold denyMode; infer_instance

/-! ## Library functions -/

theorem strncmp_eq_zero_iff (a b : CStr) (n : Nat) :
    strncmp a b n = 0 ↔ a.take n = b.take n := by
  induction n generalizing a b with
  | zero => simp [strncmp]
  | succ n ih =>
    cases a with
    | nil => cases b <;> simp [strncmp]
    | cons x xs =>
      cases b with
      | nil => simp [strncmp]
      | cons y ys =>
        by_cases hxy : x = y
        · simp [strncmp, hxy, ih]
        · by_cases hlt : x < y <;> simp [strncmp, hxy, hlt]

theorem strcmp_eq_zero_iff (a b : CStr) : strcmp a b = 0 ↔ a = b := by
  induction a generalizing b with
  | nil => cases b <;> simp [strcmp]
  | cons x xs ih =>
    cases b with
    | nil => simp [strcmp]
    | cons y ys =>
      by_cases hxy : x = y
      · simp [strcmp, hxy, ih]
      · by_cases hlt : x < y <;> simp [strcmp, hxy, hlt]

theorem size_sub_one (n : Nat) (h1 : 1 ≤ n) (h2 : n < SIZE_MOD) : size_sub n 1 = n - 1 := by
  unfold size_sub SIZE_MOD at *
  omega

theorem charAt_zero_cons (c : Char) (s : CStr) : charAt (c :: s) 0 = some c := by
  simp [charAt]

theorem charAt_last (s : CStr) (h : s ≠ []) :
    charAt s (s.length - 1) = some (s.getLast h) := by
  unfold charAt
  have hlen : 0 < s.length := List.length_pos.mpr h
  rw [List.get?_eq_getElem?, List.getElem?_append_left (by omega)]
  rw [List.getLast_eq_getElem]
  exact List.getElem?_eq_getElem _

theorem charAt_snoc (s : CStr) (c : Char) : charAt (s ++ [c]) s.length = some c := by
  unfold charAt
  rw [List.get?_eq_getElem?, List.getElem?_append_left (by simp)]
  simp

/-! ## The helpers `endsWith` and `beginsWith` -/

theorem take_eq_iff_isPrefix (host rule : CStr) :
    host.take rule.length = rule.take rule.length ↔ rule <+: host := by
  rw [List.take_length]
  constructor
  · intro e
    rw [← e]
    exact List.take_prefix _ _
  · intro e
    exact (List.prefix_iff_eq_take.mp e).symm

theorem beginsWith_iff (host rule : CStr) : beginsWith host rule = true ↔ rule <+: host := by
  unfold beginsWith strlen
  by_cases h : host.length ≥ rule.length
  · simp only [h, if_true, beq_iff_eq, strncmp_eq_zero_iff]
    exact take_eq_iff_isPrefix host rule
  · simp only [h, if_false]
    constructor
    · intro e; cases e
    · intro e; exact absurd e.length_le h

theorem endsWith_wrapped (a b : Char) (hab : a ≠ b) (n : Nat) (hpos : 0 < n)
    (hn : n % UINT_MOD = 0) : endsWith (List.replicate n a ++ [b]) [b] = false := by
  obtain ⟨m, rfl⟩ : ∃ m, n = m + 1 := ⟨n - 1, by omega⟩
  have hoff : (strlen (List.replicate (m + 1) a ++ [b]) - strlen [b]) % UINT_MOD = 0 := by
    simp only [strlen, List.length_append, List.length_replicate, List.length_singleton,
      Nat.add_sub_cancel]
    exact hn
  unfold endsWith
  simp only [hoff, List.drop_zero]
  have hlt : (if a < b then (-1 : Int) else 1) ≠ 0 := by split <;> decide
  simpa [strlen, List.replicate_succ, strncmp, hab] using hlt

/-! ## Buffers and flags -/

theorem takeWhile_length_lt (buf : List Char) (h : NUL ∈ buf) :
    (buf.takeWhile (fun c => decide (c ≠ NUL))).length < buf.length := by
  induction buf with
  | nil => simp at h
  | cons c t ih =>
    by_cases hc : c = NUL
    · simp [List.takeWhile, hc]
    · have ht : NUL ∈ t := by
        rcases List.mem_cons.mp h with e | e
        · exact absurd e.symm hc
        · exact e
      have := ih ht
      rw [List.takeWhile_cons_of_pos (by simpa using hc), List.length_cons, List.length_cons]
      omega

theorem takeWhile_length_eq (buf : List Char) (h : NUL ∉ buf) :
    (buf.takeWhile (fun c => decide (c ≠ NUL))).length = buf.length := by
  induction buf with
  | nil => rfl
  | cons c t ih =>
    have hc : c ≠ NUL := fun e => h (by simp [e])
    have ht : NUL ∉ t := fun e => h (List.mem_cons_of_mem _ e)
    rw [List.takeWhile_cons_of_pos (by simpa using hc), List.length_cons, List.length_cons,
      ih ht]

theorem strnlen_lt_of_terminated (buf : List Char) (n : Nat) (hwf : buf.length = n)
    (h : NUL ∈ buf) : strnlen buf n < n := by
  unfold strnlen
  rw [← hwf, List.take_length]
  exact takeWhile_length_lt buf h

theorem strnlen_eq_of_unterminated (buf : List Char) (n : Nat) (hwf : buf.length = n)
    (h : NUL ∉ buf) : strnlen buf n = n := by
  unfold strnlen
  rw [← hwf, List.take_length]
  exact takeWhile_length_eq buf h

theorem nameBuf_length (n : Nat) (s : String) (h : s.length ≤ n) :
    (nameBuf n s).length = n := by
  unfold nameBuf
  rw [List.length_append, List.length_replicate]
  have : s.toList.length = s.length := rfl
  omega

theorem lor_eq_zero_iff (a b : Nat) : a ||| b = 0 ↔ a = 0 ∧ b = 0 := by
  constructor
  · intro h
    have hbit : ∀ i, a.testBit i = false ∧ b.testBit i = false := by
      intro i
      have hi : (a ||| b).testBit i = false := by rw [h]; exact Nat.zero_testBit i
      rw [Nat.testBit_or] at hi
      simpa using hi
    constructor
    · apply Nat.eq_of_testBit_eq
      intro i
      rw [(hbit i).1, Nat.zero_testBit]
    · apply Nat.eq_of_testBit_eq
      intro i
      rw [(hbit i).2, Nat.zero_testBit]
  · rintro ⟨rfl, rfl⟩
    rfl

theorem flags_and_modes_eq_zero_iff (k : Header) (info : xt_domainfilter_match_info) :
    info.flags &&& (k.XT_DOMAINFILTER_WHITE ||| k.XT_DOMAINFILTER_BLACK) = 0
      ↔ ¬ allowMode k info ∧ ¬ denyMode k info := by
  unfold allowMode denyMode
  rw [Nat.and_or_distrib_left, lor_eq_zero_iff]
  simp

theorem check_of_terminated (k : Header) (info : xt_domainfilter_match_info)
    (hwf : info.domain_name.length = k.XT_DOMAINFILTER_NAME_LEN)
    (hterm : NUL ∈ info.domain_name) (hmode : allowMode k info ∨ denyMode k info) :
    domainfilter_check k info = 0 := by
  have h1 := strnlen_lt_of_terminated _ _ hwf hterm
  have h2 : ¬ (info.flags &&& (k.XT_DOMAINFILTER_WHITE ||| k.XT_DOMAINFILTER_BLACK) = 0) := by
    rw [flags_and_modes_eq_zero_iff]
    tauto
  unfold domainfilter_check
  rw [if_neg (by omega), if_neg h2]

theorem check_of_unterminated (k : Header) (info : xt_domainfilter_match_info)
    (hwf : info.domain_name.length = k.XT_DOMAINFILTER_NAME_LEN)
    (hterm : NUL ∉ info.domain_name) : domainfilter_check k info = -EINVAL := by
  unfold domainfilter_check
  rw [if_pos (strnlen_eq_of_unterminated _ _ hwf hterm)]

theorem check_of_no_mode (k : Header) (info : xt_domainfilter_match_info)
    (hmode : ¬ allowMode k info ∧ ¬ denyMode k info) : domainfilter_check k info = -EINVAL := by
  unfold domainfilter_check
  split
  · rfl
  · rw [if_pos ((flags_and_modes_eq_zero_iff k info).mpr hmode)]

theorem cstr_length_lt (buf : List Char) (n : Nat) (hwf : buf.length = n) (h : NUL ∈ buf) :
    ∃ p, cstr? buf = some p ∧ p.length < n := by
  refine ⟨buf.takeWhile (fun c => decide (c ≠ NUL)), ?_, ?_⟩
  · unfold cstr?
    rw [if_pos h]
  · rw [← hwf]
    exact takeWhile_length_lt buf h

/-! ## The arms of `matchHost` -/

theorem matchHostTrace_leading (L : Nat) (s host : CStr) (hs : s ≠ [])
    (hlast : s.getLast hs ≠ WILDCARD) (hlen : (WILDCARD :: s).length < L) (hL : L ≤ INT_MAX) :
    matchHostTrace L (WILDCARD :: s) host
      = some ⟨Branch.leadingOnly, some (s.length + 1, (s.length : Int)), endsWith host s⟩ := by
  have hpos : 0 < s.length := List.length_pos.mpr hs
  simp only [List.length_cons] at hlen
  have hsz : size_sub (s.length + 1) 1 = s.length :=
    size_sub_one _ (by omega) (by unfold SIZE_MOD; unfold INT_MAX at hL; omega)
  have hl : charAt (WILDCARD :: s) s.length = some (s.getLast hs) := by
    have h1 := charAt_last (WILDCARD :: s) (by simp)
    simp only [List.length_cons, Nat.add_sub_cancel] at h1
    rw [h1, List.getLast_cons hs]
  have hcp : strscpy L s (s.length + 1) = some ((s.length : Int), s) := by
    unfold strscpy
    rw [if_neg (by omega), if_pos (by omega), if_pos (by omega)]
  have hne : ¬ (s.length + 1 = 1 ∧ WILDCARD = WILDCARD) := by omega
  have hnn : ¬ ((s.length : Int) < 0) := by omega
  have hsl : strlen (WILDCARD :: s) = s.length + 1 := rfl
  unfold matchHostTrace matchHostTraceWith
  rw [charAt_zero_cons]
  dsimp only
  rw [hsl, if_neg hne, if_pos rfl, hsz, hl]
  dsimp only [List.drop_succ_cons, List.drop_zero]
  rw [if_neg hlast, hcp]
  dsimp only
  rw [if_neg hnn]

theorem strscpy_truncated (L : Nat) (src : CStr) (hpos : 0 < src.length)
    (hcap : src.length ≤ L) (hL : L ≤ INT_MAX) :
    strscpy L src src.length = some (-E2BIG, src.take (src.length - 1)) := by
  unfold strscpy
  rw [if_neg (by omega), if_neg (by omega), if_pos hcap]

theorem matchHostTrace_bothEnds (L : Nat) (s host : CStr)
    (hlen : (WILDCARD :: (s ++ [WILDCARD])).length < L) (hL : L ≤ INT_MAX) :
    matchHostTrace L (WILDCARD :: (s ++ [WILDCARD])) host
      = some ⟨Branch.bothEnds, some (s.length + 1, -E2BIG), false⟩ := by
  simp only [List.length_cons, List.length_append, List.length_nil, Nat.zero_add] at hlen
  have hsl : strlen (WILDCARD :: (s ++ [WILDCARD])) = s.length + 1 + 1 := by
    simp [strlen]
  have hsz : size_sub (s.length + 1 + 1) 1 = s.length + 1 :=
    size_sub_one _ (by omega) (by unfold SIZE_MOD; unfold INT_MAX at hL; omega)
  have hl : charAt (WILDCARD :: (s ++ [WILDCARD])) (s.length + 1) = some WILDCARD := by
    exact charAt_snoc (WILDCARD :: s) WILDCARD
  have hcp : strscpy L (s ++ [WILDCARD]) (s.length + 1)
      = some (-E2BIG, (s ++ [WILDCARD]).take (s.length + 1 - 1)) := by
    have h1 := strscpy_truncated L (s ++ [WILDCARD]) (by simp) (by simp; omega) hL
    simpa using h1
  have hne : ¬ (s.length + 1 + 1 = 1 ∧ WILDCARD = WILDCARD) := by omega
  have hneg : (-E2BIG : Int) < 0 := by decide
  unfold matchHostTrace matchHostTraceWith
  rw [charAt_zero_cons]
  dsimp only
  rw [hsl, if_neg hne, if_pos rfl, hsz, hl]
  dsimp only [List.drop_succ_cons, List.drop_zero]
  rw [if_pos rfl, hcp]
  dsimp only
  rw [if_pos hneg]

theorem matchHostTrace_trailing (L : Nat) (c : Char) (s host : CStr) (hc : c ≠ WILDCARD)
    (hlen : (c :: (s ++ [WILDCARD])).length < L) (hL : L ≤ INT_MAX) :
    matchHostTrace L (c :: (s ++ [WILDCARD])) host
      = some ⟨Branch.trailingOnly, some (s.length + 1 + 1, -E2BIG), false⟩ := by
  simp only [List.length_cons, List.length_append, List.length_nil, Nat.zero_add] at hlen
  have hsl : strlen (c :: (s ++ [WILDCARD])) = s.length + 1 + 1 := by
    simp [strlen]
  have hsz : size_sub (s.length + 1 + 1) 1 = s.length + 1 :=
    size_sub_one _ (by omega) (by unfold SIZE_MOD; unfold INT_MAX at hL; omega)
  have hl : charAt (c :: (s ++ [WILDCARD])) (s.length + 1) = some WILDCARD := by
    exact charAt_snoc (c :: s) WILDCARD
  have hcp : strscpy L (c :: (s ++ [WILDCARD])) (s.length + 1 + 1)
      = some (-E2BIG, (c :: (s ++ [WILDCARD])).take (s.length + 1 + 1 - 1)) := by
    have h1 := strscpy_truncated L (c :: (s ++ [WILDCARD])) (by simp) (by simp; omega) hL
    simpa using h1
  have hne : ¬ (s.length + 1 + 1 = 1 ∧ c = WILDCARD) := by omega
  have hneg : (-E2BIG : Int) < 0 := by decide
  unfold matchHostTrace matchHostTraceWith
  rw [charAt_zero_cons]
  dsimp only
  rw [hsl, if_neg hne, if_neg hc, hsz, hl]
  dsimp only
  rw [if_pos rfl, hcp]
  dsimp only
  rw [if_pos hneg]

theorem charAt_mem (s : CStr) (i : Nat) (h : i < s.length) :
    ∃ d, charAt s i = some d ∧ d ∈ s := by
  refine ⟨s.get ⟨i, h⟩, ?_, List.get_mem _ _ _⟩
  unfold charAt
  rw [List.get?_eq_getElem?, List.getElem?_append_left h]
  simp

theorem size_sub_one_lt (n : Nat) (h : 1 ≤ n) : size_sub n 1 < n := by
  unfold size_sub SIZE_MOD
  omega

theorem matchHostTrace_exact (L : Nat) (rule host : CStr) (h0 : rule ≠ [])
    (hw : WILDCARD ∉ rule) :
    matchHostTrace L rule host = some ⟨Branch.exact, none, decide (host = rule)⟩ := by
  obtain ⟨c, t, rfl⟩ : ∃ c t, rule = c :: t := List.exists_cons_of_ne_nil h0
  have hc : c ≠ WILDCARD := fun e => hw (by simp [e])
  have hsl : strlen (c :: t) = t.length + 1 := rfl
  obtain ⟨d, hd, hmem⟩ := charAt_mem (c :: t) (size_sub (t.length + 1) 1)
    (size_sub_one_lt _ (by omega))
  have hdw : d ≠ WILDCARD := fun e => hw (e ▸ hmem)
  have hne : ¬ (t.length + 1 = 1 ∧ c = WILDCARD) := fun h => hc h.2
  have hres : (decide (strlen host = t.length + 1) && (strcmp host (c :: t) == 0))
      = decide (host = c :: t) := by
    rw [Bool.eq_iff_iff]
    simp only [Bool.and_eq_true, decide_eq_true_eq, beq_iff_eq, strcmp_eq_zero_iff]
    constructor
    · intro h; exact h.2
    · intro h; exact ⟨by rw [h]; rfl, h⟩
  unfold matchHostTrace matchHostTraceWith
  rw [charAt_zero_cons]
  dsimp only
  rw [hsl, if_neg hne, if_neg hc, hd]
  dsimp only
  rw [if_neg hdw, hres]

theorem matchHostTrace_matchAll (L : Nat) (host : CStr) :
    matchHostTrace L [WILDCARD] host = some ⟨Branch.matchAll, none, true⟩ := by
  have hsl : strlen [WILDCARD] = 1 := rfl
  unfold matchHostTrace matchHostTraceWith
  rw [charAt_zero_cons]
  dsimp only
  rw [hsl, if_pos ⟨rfl, rfl⟩]

/-- Every pattern that starts and ends with the wildcard takes the both-ends arm
and is answered `false`: the copy of the inner string is a truncating one, which
`strscpy` reports as `-E2BIG`. -/
theorem matchHost_bothEnds_false (L : Nat) (s host : CStr)
    (hlen : (WILDCARD :: (s ++ [WILDCARD])).length < L) (hL : L ≤ INT_MAX) :
    matchHost L (WILDCARD :: (s ++ [WILDCARD])) host = some false := by
  unfold matchHost
  rw [matchHostTrace_bothEnds L s host hlen hL]
  rfl

/-- Every pattern that only ends with the wildcard takes the trailing arm and is
answered `false`, for the same reason. -/
theorem matchHost_trailing_false (L : Nat) (c : Char) (s host : CStr) (hc : c ≠ WILDCARD)
    (hlen : (c :: (s ++ [WILDCARD])).length < L) (hL : L ≤ INT_MAX) :
    matchHost L (c :: (s ++ [WILDCARD])) host = some false := by
  unfold matchHost
  rw [matchHostTrace_trailing L c s host hc hlen hL]
  rfl

theorem matchHostTrace_exact_ends (L : Nat) (c : Char) (t host : CStr) (hc : c ≠ WILDCARD)
    (hlast : (c :: t).getLast (List.cons_ne_nil c t) ≠ WILDCARD)
    (hsz : (c :: t).length < SIZE_MOD) :
    matchHostTrace L (c :: t) host = some ⟨Branch.exact, none, decide (host = c :: t)⟩ := by
  have hsl : strlen (c :: t) = t.length + 1 := rfl
  simp only [List.length_cons] at hsz
  have hidx : size_sub (t.length + 1) 1 = t.length := by
    rw [size_sub_one _ (by omega) hsz, Nat.add_sub_cancel]
  have hd : charAt (c :: t) t.length = some ((c :: t).getLast (List.cons_ne_nil c t)) := by
    have h1 := charAt_last (c :: t) (List.cons_ne_nil c t)
    simp only [List.length_cons, Nat.add_sub_cancel] at h1
    exact h1
  have hne : ¬ (t.length + 1 = 1 ∧ c = WILDCARD) := fun h => hc h.2
  have hres : (decide (strlen host = t.length + 1) && (strcmp host (c :: t) == 0))
      = decide (host = c :: t) := by
    rw [Bool.eq_iff_iff]
    simp only [Bool.and_eq_true, decide_eq_true_eq, beq_iff_eq, strcmp_eq_zero_iff]
    constructor
    · intro h; exact h.2
    · intro h; exact ⟨by rw [h]; rfl, h⟩
  unfold matchHostTrace matchHostTraceWith
  rw [charAt_zero_cons]
  dsimp only
  rw [hsl, if_neg hne, if_neg hc, hidx, hd]
  dsimp only
  rw [if_neg hlast, hres]

theorem nil_or_snoc (t : CStr) : t = [] ∨ ∃ s d, t = s ++ [d] := by
  rcases List.eq_nil_or_concat t with h | ⟨s, d, h⟩
  · exact Or.inl h
  · exact Or.inr ⟨s, d, by rw [h, List.concat_eq_append]⟩

theorem matchHostTrace_nil (L : Nat) (host : CStr) : matchHostTrace L [] host = none := by
  rfl

/-- The arm that `matchHost` takes and what it records there, by the shape of a
non-empty pattern shorter than the name buffer. -/
theorem matchHostTrace_cases (L : Nat) (rule host : CStr) (h0 : rule ≠ [])
    (hlen : rule.length < L) (hL : L ≤ INT_MAX) :
    (rule = [WILDCARD] ∧
      matchHostTrace L rule host = some ⟨Branch.matchAll, none, true⟩) ∨
    (∃ s, rule = WILDCARD :: (s ++ [WILDCARD]) ∧
      matchHostTrace L rule host
        = some ⟨Branch.bothEnds, some (s.length + 1, -E2BIG), false⟩) ∨
    (∃ s, rule = WILDCARD :: s ∧ s ≠ [] ∧
      matchHostTrace L rule host
        = some ⟨Branch.leadingOnly, some (s.length + 1, (s.length : Int)), endsWith host s⟩) ∨
    (∃ c s, rule = c :: (s ++ [WILDCARD]) ∧ c ≠ WILDCARD ∧
      matchHostTrace L rule host
        = some ⟨Branch.trailingOnly, some (s.length + 1 + 1, -E2BIG), false⟩) ∨
    (matchHostTrace L rule host = some ⟨Branch.exact, none, decide (host = rule)⟩) := by
  obtain ⟨c, t, rfl⟩ : ∃ c t, rule = c :: t := List.exists_cons_of_ne_nil h0
  have hsz : (c :: t).length < SIZE_MOD := by
    unfold SIZE_MOD; unfold INT_MAX at hL; omega
  by_cases hc : c = WILDCARD
  · subst hc
    rcases nil_or_snoc t with rfl | ⟨s, d, rfl⟩
    · exact Or.inl ⟨rfl, matchHostTrace_matchAll L host⟩
    · by_cases hd : d = WILDCARD
      · subst hd
        exact Or.inr (Or.inl ⟨s, rfl, matchHostTrace_bothEnds L s host hlen hL⟩)
      · have hs : s ++ [d] ≠ [] := by simp
        have hl : (s ++ [d]).getLast hs ≠ WILDCARD := by
          rw [List.getLast_append_singleton]; exact hd
        have h := matchHostTrace_leading L (s ++ [d]) host hs hl hlen hL
        exact Or.inr (Or.inr (Or.inl ⟨s ++ [d], rfl, hs, h⟩))
  · rcases nil_or_snoc t with rfl | ⟨s, d, rfl⟩
    · exact Or.inr (Or.inr (Or.inr (Or.inr
        (matchHostTrace_exact_ends L c [] host hc (by simpa using hc) hsz))))
    · by_cases hd : d = WILDCARD
      · subst hd
        exact Or.inr (Or.inr (Or.inr (Or.inl
          ⟨c, s, rfl, hc, matchHostTrace_trailing L c s host hc hlen hL⟩)))
      · have hl : (c :: (s ++ [d])).getLast (List.cons_ne_nil c (s ++ [d])) ≠ WILDCARD := by
          rw [List.getLast_cons (by simp), List.getLast_append_singleton]; exact hd
        exact Or.inr (Or.inr (Or.inr (Or.inr
          (matchHostTrace_exact_ends L c (s ++ [d]) host hc hl hsz))))

theorem strscpy_in_bounds (L : Nat) (src : CStr) (count : Nat) (h1 : 1 ≤ count)
    (h2 : count ≤ L) (hL : L ≤ INT_MAX) :
    ∃ ret dest, strscpy L src count = some (ret, dest) ∧ dest.length + 1 ≤ L := by
  unfold strscpy
  rw [if_neg (by omega)]
  by_cases h : src.length < count
  · rw [if_pos h, if_pos (by omega)]
    exact ⟨_, _, rfl, by omega⟩
  · rw [if_neg h, if_pos h2]
    refine ⟨_, _, rfl, ?_⟩
    rw [List.length_take]
    omega

theorem endsWith_wrapped_head (a b : Char) (n : Nat) (hn : n % UINT_MOD = 0) :
    endsWith (b :: List.replicate n a) [b] = true := by
  have hoff : (strlen (b :: List.replicate n a) - strlen [b]) % UINT_MOD = 0 := by
    simp only [strlen, List.length_cons, List.length_replicate, List.length_nil,
      Nat.zero_add, Nat.add_sub_cancel]
    exact hn
  unfold endsWith
  simp only [hoff, List.drop_zero]
  simp [strlen, strncmp]

theorem not_suffix_cons_replicate (a b : Char) (hab : a ≠ b) (n : Nat) (hpos : 0 < n) :
    ¬ ([b] <:+ (b :: List.replicate n a)) := by
  obtain ⟨m, rfl⟩ : ∃ m, n = m + 1 := ⟨n - 1, by omega⟩
  intro h
  have h1 : (b :: List.replicate (m + 1) a).getLast? = some a := by
    rw [List.replicate_succ']
    rw [← List.cons_append, List.getLast?_append]
    simp
  obtain ⟨t, ht⟩ := h
  have h2 := congrArg List.getLast? ht
  rw [h1, List.getLast?_append] at h2
  have h3 : (some b).or t.getLast? = some b := rfl
  rw [List.getLast?_singleton, h3] at h2
  exact hab (Option.some.inj h2).symm

theorem matchHost_isSome (L : Nat) (rule host : CStr) (h0 : rule ≠ [])
    (hlen : rule.length < L) (hL : L ≤ INT_MAX) : ∃ b, matchHost L rule host = some b := by
  unfold matchHost
  rcases matchHostTrace_cases L rule host h0 hlen hL with
    ⟨_, h⟩ | ⟨_, _, h⟩ | ⟨_, _, _, h⟩ | ⟨_, _, _, _, h⟩ | h <;>
  · rw [h]
    exact ⟨_, rfl⟩

/-- Over a name buffer of `XT_DOMAINFILTER_NAME_LEN` bytes that holds a
terminator and a non-empty pattern, `domainfilter_mt` returns a boolean for every
candidate, absent, empty or not. -/
theorem domainfilter_mt_total_of_nonempty_pattern (k : Header)
    (info : xt_domainfilter_match_info) (sk : Option sock)
    (hwf : info.domain_name.length = k.XT_DOMAINFILTER_NAME_LEN)
    (hL : k.XT_DOMAINFILTER_NAME_LEN ≤ INT_MAX) (hterm : NUL ∈ info.domain_name)
    (hne : cstr? info.domain_name ≠ some []) :
    ∃ b, domainfilter_mt k info sk = some b := by
  obtain ⟨p, hp, hplen⟩ := cstr_length_lt _ _ hwf hterm
  have hp0 : p ≠ [] := fun e => hne (e ▸ hp)
  unfold domainfilter_mt domainfilter_mt_on
  cases sk with
  | none => exact ⟨false, rfl⟩
  | some s =>
    obtain ⟨dn⟩ := s
    cases dn with
    | none => exact ⟨false, rfl⟩
    | some d =>
      cases d with
      | nil => exact ⟨false, rfl⟩
      | cons c cs =>
        dsimp only
        rw [hp]
        exact matchHost_isSome _ p (c :: cs) hp0 hplen hL

/-! ## The run on the machine -/

theorem memAt_of_le (before : Char) (s : CStr) (i : Nat) (h : i ≤ s.length) :
    memAt before s i = charAt s i := by
  unfold memAt
  rw [if_pos h]

/-- On a non-empty pattern every read of `matchHost` lies inside the pattern, so
the run on the machine is the checked one, whatever byte precedes the pattern. -/
theorem matchHostTraceAt_eq (before : Char) (L : Nat) (rule host : CStr) (h0 : rule ≠ []) :
    matchHostTraceAt before L rule host = matchHostTrace L rule host := by
  have hpos : 1 ≤ rule.length := List.length_pos.mpr h0
  have h1 : memAt before rule 0 = charAt rule 0 := memAt_of_le _ _ _ (Nat.zero_le _)
  have h2 : memAt before rule (size_sub (strlen rule) 1)
      = charAt rule (size_sub (strlen rule) 1) :=
    memAt_of_le _ _ _ (Nat.le_of_lt (size_sub_one_lt _ hpos))
  unfold matchHostTraceAt matchHostTrace matchHostTraceWith
  dsimp only
  rw [h1, h2]

/-- On the empty pattern the run on the machine reads the byte before the
pattern; when that byte is the wildcard it enters the trailing arm and calls
`strscpy` with the count 0. -/
theorem matchHostTraceAt_nil_wildcard (L : Nat) (host : CStr) :
    matchHostTraceAt WILDCARD L [] host
      = some ⟨Branch.trailingOnly, some (0, -E2BIG), false⟩ := by
  rfl

/-! ## The matching rules -/

/-- Beyond that bound the suffix test is made at the wrong place. At the pattern
"%b" and the host made of 2^32 bytes 'a' followed by 'b', the host ends with
"b" and `matchHost` answers `false`: the offset 2^32 does not fit the
`unsigned int` that `endsWith` keeps it in; it becomes 0 and "b" is compared
with the start of the host. -/
theorem leading_wildcard_long_host :
    ['b'] <:+ (List.replicate 4294967296 'a' ++ ['b']) ∧
    matchHost 256 ['%', 'b'] (List.replicate 4294967296 'a' ++ ['b']) = some false := by
  refine ⟨List.suffix_append _ _, ?_⟩
  have hw : endsWith (List.replicate 4294967296 'a' ++ ['b']) ['b'] = false :=
    endsWith_wrapped 'a' 'b' (by decide) 4294967296 (by decide) (by decide)
  have ht := matchHostTrace_leading 256 ['b'] (List.replicate 4294967296 'a' ++ ['b'])
    (by decide) (by decide) (by decide) (by decide)
  unfold matchHost
  have hW : ['%', 'b'] = WILDCARD :: ['b'] := rfl
  rw [hW, ht, hw]
  rfl

/-- C2, both-ends-wildcard rule, at the pattern "%example.com%" and the host
"www.example.com/path": the inner string "example.com" occurs in the host, and
`matchHost` answers `false`. The call `strscpy(substrRule, rule+1, rule_len-1)`
leaves out the last byte of its source, so it returns `-E2BIG` and line 76
returns before `strstr` is tried. -/
theorem both_ends_wildcard_example :
    "example.com".toList <:+: "www.example.com/path".toList ∧
    matchHostTrace 256 "%example.com%".toList "www.example.com/path".toList
      = some ⟨Branch.bothEnds, some (12, -E2BIG), false⟩ ∧
    matchHost 256 "%example.com%".toList "www.example.com/path".toList = some false := by
  refine ⟨⟨"www.".toList, "/path".toList, by decide⟩, by decide, by decide⟩

/-- C3, trailing-wildcard rule, at the pattern "sub.%" and the host
"sub.example.com": the host begins with "sub.", and `matchHost` answers `false`.
The call `strscpy(substrRule, rule, rule_len)` leaves out the last byte of its
source, so it returns `-E2BIG` and line 94 returns before `beginsWith` is
tried. -/
theorem trailing_wildcard_example :
    "sub.".toList <+: "sub.example.com".toList ∧
    matchHostTrace 256 "sub.%".toList "sub.example.com".toList
      = some ⟨Branch.trailingOnly, some (5, -E2BIG), false⟩ ∧
    matchHost 256 "sub.%".toList "sub.example.com".toList = some false := by
  refine ⟨⟨"example.com".toList, by decide⟩, by decide, by decide⟩

/-- C4, exact-match rule: for a non-empty pattern without any wildcard
character, `matchHost` returns a boolean, which is true exactly when the host
equals the pattern, byte for byte and in length. -/
theorem exact_match_rule (L : Nat) (rule host : CStr) (h0 : rule ≠ [])
    (hw : WILDCARD ∉ rule) :
    matchHost L rule host = some (decide (host = rule)) ∧
    (matchHost L rule host = some true ↔ host.length = rule.length ∧ host = rule) := by
  have h : matchHost L rule host = some (decide (host = rule)) := by
    unfold matchHost
    rw [matchHostTrace_exact L rule host h0 hw]
    rfl
  refine ⟨h, ?_⟩
  rw [h]
  simp only [Option.some.injEq, decide_eq_true_eq]
  constructor
  · intro e; exact ⟨by rw [e], e⟩
  · intro e; exact e.2

/-- Witness of C4: a host that has the pattern "example.com" as a proper prefix
does not match it. -/
theorem exact_match_rule_witness :
    "example.com".toList ≠ [] ∧ WILDCARD ∉ "example.com".toList ∧
    matchHost 256 "example.com".toList "example.com.evil.net".toList = some false ∧
    matchHost 256 "Example.com".toList "example.com".toList = some false ∧
    matchHost 256 "example.com".toList "example.com".toList = some true :=
  ⟨by decide, by decide,
   (exact_match_rule 256 "example.com".toList "example.com.evil.net".toList
      (by decide) (by decide)).1.trans (by decide),
   (exact_match_rule 256 "Example.com".toList "example.com".toList
      (by decide) (by decide)).1.trans (by decide),
   (exact_match_rule 256 "example.com".toList "example.com".toList
      (by decide) (by decide)).1.trans (by decide)⟩

/-- C5, match-all rule: when the pattern of the rule is exactly "%",
`domainfilter_mt` is true for every non-empty candidate and false for the empty
one, and `matchHost` decides the pattern in its first arm, whatever the host:
neither the both-ends arm nor the leading arm is entered and no copy is made. -/
theorem match_all_rule (k : Header) (info : xt_domainfilter_match_info)
    (hp : cstr? info.domain_name = some [WILDCARD]) :
    (∀ host : CStr, host ≠ [] → domainfilter_mt k info (some ⟨some host⟩) = some true) ∧
    domainfilter_mt k info (some ⟨some []⟩) = some false ∧
    (∀ host : CStr, matchHostTrace k.XT_DOMAINFILTER_NAME_LEN [WILDCARD] host
      = some ⟨Branch.matchAll, none, true⟩) := by
  refine ⟨?_, rfl, fun host => matchHostTrace_matchAll _ host⟩
  intro host hne
  obtain ⟨c, t, rfl⟩ : ∃ c t, host = c :: t := List.exists_cons_of_ne_nil hne
  unfold domainfilter_mt domainfilter_mt_on
  dsimp only
  rw [hp]
  dsimp only
  unfold matchHost
  rw [matchHostTrace_matchAll]
  rfl

/-- Witness of C5: the rule "%" of the allow mode against the candidate
"anything". -/
theorem match_all_rule_witness :
    cstr? (nameBuf 256 "%") = some [WILDCARD] ∧
    domainfilter_mt samsungHeader ⟨nameBuf 256 "%", 1⟩ (some ⟨some "anything".toList⟩)
      = some true ∧
    domainfilter_mt samsungHeader ⟨nameBuf 256 "%", 1⟩ (some ⟨some []⟩) = some false :=
  have hp : cstr? (nameBuf 256 "%") = some [WILDCARD] := by decide
  ⟨hp,
   (match_all_rule samsungHeader ⟨nameBuf 256 "%", 1⟩ hp).1 "anything".toList (by decide),
   (match_all_rule samsungHeader ⟨nameBuf 256 "%", 1⟩ hp).2.1⟩

/-- C6, absent or empty candidate: for every rule, `domainfilter_mt` returns
false when there is no socket, when the domain name of the socket is NULL and
when it is the empty string. This holds whatever function stands at the call of
line 127, so `matchHost` is not consulted. -/
theorem absent_or_empty_candidate_never_matches (k : Header)
    (info : xt_domainfilter_match_info) (mh : CStr → CStr → Option Bool) :
    (domainfilter_mt k info none = some false ∧
     domainfilter_mt k info (some ⟨none⟩) = some false ∧
     domainfilter_mt k info (some ⟨some []⟩) = some false) ∧
    (domainfilter_mt_on mh info none = some false ∧
     domainfilter_mt_on mh info (some ⟨none⟩) = some false ∧
     domainfilter_mt_on mh info (some ⟨some []⟩) = some false) :=
  ⟨⟨rfl, rfl, rfl⟩, ⟨rfl, rfl, rfl⟩⟩

/-! ## Validation -/

/-- C7, validation length contract: over a name buffer of
`XT_DOMAINFILTER_NAME_LEN` bytes, a rule whose buffer holds a terminator has a
pattern shorter than `XT_DOMAINFILTER_NAME_LEN` and, when it carries exactly one
of the allow and deny flags, `domainfilter_check` returns 0; a rule whose buffer
holds no terminator is refused with `-EINVAL`, whatever its flags. -/
theorem check_length_contract (k : Header) (info : xt_domainfilter_match_info)
    (hwf : info.domain_name.length = k.XT_DOMAINFILTER_NAME_LEN) :
    (NUL ∈ info.domain_name →
      (∃ p, cstr? info.domain_name = some p ∧ p.length < k.XT_DOMAINFILTER_NAME_LEN) ∧
      ((allowMode k info ∧ ¬ denyMode k info) ∨ (¬ allowMode k info ∧ denyMode k info) →
        domainfilter_check k info = 0)) ∧
    (NUL ∉ info.domain_name →
      cstr? info.domain_name = none ∧ domainfilter_check k info = -EINVAL ∧
      domainfilter_check k info ≠ 0) := by
  constructor
  · intro hterm
    refine ⟨cstr_length_lt _ _ hwf hterm, ?_⟩
    intro hmode
    exact check_of_terminated k info hwf hterm (by tauto)
  · intro hterm
    have h := check_of_unterminated k info hwf hterm
    refine ⟨?_, h, ?_⟩
    · unfold cstr?
      rw [if_neg hterm]
    · rw [h]; decide

/-- Witness of C7: the rule "example.com" of the allow mode is accepted, and a
buffer filled with 256 bytes 'a' is refused. -/
theorem check_length_contract_witness :
    ((nameBuf 256 "example.com").length = samsungHeader.XT_DOMAINFILTER_NAME_LEN ∧
      NUL ∈ nameBuf 256 "example.com" ∧
      domainfilter_check samsungHeader ⟨nameBuf 256 "example.com", 1⟩ = 0) ∧
    ((List.replicate 256 'a').length = samsungHeader.XT_DOMAINFILTER_NAME_LEN ∧
      NUL ∉ List.replicate 256 'a' ∧
      domainfilter_check samsungHeader ⟨List.replicate 256 'a', 1⟩ = -EINVAL) :=
  have hwf1 : (nameBuf 256 "example.com").length = samsungHeader.XT_DOMAINFILTER_NAME_LEN :=
    nameBuf_length 256 "example.com" (by decide)
  have ht1 : NUL ∈ nameBuf 256 "example.com" := by decide
  have hwf2 : (List.replicate 256 'a').length = samsungHeader.XT_DOMAINFILTER_NAME_LEN :=
    List.length_replicate 256 'a' 
  have ht2 : NUL ∉ List.replicate 256 'a' := by decide
  ⟨⟨hwf1, ht1,
    ((check_length_contract samsungHeader ⟨nameBuf 256 "example.com", 1⟩ hwf1).1 ht1).2
      (Or.inl (by decide))⟩,
   ⟨hwf2, ht2,
    ((check_length_contract samsungHeader ⟨List.replicate 256 'a', 1⟩ hwf2).2 ht2).2.1⟩⟩

/-- C8, validation rejects a rule with no mode: a rule whose flags contain
neither `XT_DOMAINFILTER_WHITE` nor `XT_DOMAINFILTER_BLACK` is refused by
`domainfilter_check` with `-EINVAL`, whatever its pattern. -/
theorem check_rejects_no_mode (k : Header) (info : xt_domainfilter_match_info)
    (hmode : ¬ allowMode k info ∧ ¬ denyMode k info) :
    domainfilter_check k info = -EINVAL ∧ domainfilter_check k info ≠ 0 := by
  have h := check_of_no_mode k info hmode
  refine ⟨h, ?_⟩
  rw [h]; decide

/-- Witness of C8: the rule "example.com" whose flags are 4, a bit that is
neither mode. -/
theorem check_rejects_no_mode_witness :
    (¬ allowMode samsungHeader ⟨nameBuf 256 "example.com", 4⟩ ∧
      ¬ denyMode samsungHeader ⟨nameBuf 256 "example.com", 4⟩) ∧
    domainfilter_check samsungHeader ⟨nameBuf 256 "example.com", 4⟩ = -EINVAL :=
  have hm : ¬ allowMode samsungHeader ⟨nameBuf 256 "example.com", 4⟩ ∧
      ¬ denyMode samsungHeader ⟨nameBuf 256 "example.com", 4⟩ := by decide
  ⟨hm, (check_rejects_no_mode samsungHeader ⟨nameBuf 256 "example.com", 4⟩ hm).1⟩

/-- C9 as stated fails: the rule "example.com" whose flags are 3 designates
both the allow and the deny mode, and `domainfilter_check` accepts it. -/
theorem check_accepts_both_modes_example :
    allowMode samsungHeader ⟨nameBuf 256 "example.com", 3⟩ ∧
    denyMode samsungHeader ⟨nameBuf 256 "example.com", 3⟩ ∧
    domainfilter_check samsungHeader ⟨nameBuf 256 "example.com", 3⟩ = 0 := by
  decide

/-- C9, amended: `domainfilter_check` does not refuse a rule for designating
both modes. Over a name buffer of `XT_DOMAINFILTER_NAME_LEN` bytes, a rule that
carries both the allow and the deny flag and whose buffer holds a terminator is
accepted; and every accepted rule carries at least one of the two flags. -/
theorem check_mode_contract (k : Header) (info : xt_domainfilter_match_info)
    (hwf : info.domain_name.length = k.XT_DOMAINFILTER_NAME_LEN) :
    (allowMode k info ∧ denyMode k info → NUL ∈ info.domain_name →
      domainfilter_check k info = 0) ∧
    (domainfilter_check k info = 0 → allowMode k info ∨ denyMode k info) := by
  constructor
  · intro hboth hterm
    exact check_of_terminated k info hwf hterm (Or.inl hboth.1)
  · intro h0
    by_contra hno
    have h := check_of_no_mode k info (by tauto)
    rw [h0] at h
    exact absurd h (by decide)

/-- Witness of the amended C9: the rule "example.com" with both flags, which is
accepted, carries the allow flag. -/
theorem check_mode_contract_witness :
    (nameBuf 256 "example.com").length = samsungHeader.XT_DOMAINFILTER_NAME_LEN ∧
    (allowMode samsungHeader ⟨nameBuf 256 "example.com", 3⟩ ∧
      denyMode samsungHeader ⟨nameBuf 256 "example.com", 3⟩) ∧
    NUL ∈ nameBuf 256 "example.com" ∧
    domainfilter_check samsungHeader ⟨nameBuf 256 "example.com", 3⟩ = 0 ∧
    (allowMode samsungHeader ⟨nameBuf 256 "example.com", 3⟩ ∨
      denyMode samsungHeader ⟨nameBuf 256 "example.com", 3⟩) :=
  have hwf : (nameBuf 256 "example.com").length = samsungHeader.XT_DOMAINFILTER_NAME_LEN :=
    nameBuf_length 256 "example.com" (by decide)
  have hb : allowMode samsungHeader ⟨nameBuf 256 "example.com", 3⟩ ∧
      denyMode samsungHeader ⟨nameBuf 256 "example.com", 3⟩ := by decide
  have ht : NUL ∈ nameBuf 256 "example.com" := by decide
  have h0 := (check_mode_contract samsungHeader ⟨nameBuf 256 "example.com", 3⟩ hwf).1 hb ht
  ⟨hwf, hb, ht, h0,
   (check_mode_contract samsungHeader ⟨nameBuf 256 "example.com", 3⟩ hwf).2 h0⟩

/-- C10, validation of the empty pattern, at the rule whose name buffer holds
256 terminators and whose flag is the allow bit: the pattern is the empty
string and `domainfilter_check` returns 0. With that rule and the candidate "a",
`matchHost` reads `rule[rule_len - 1]` at index 2^64 - 1, outside the pattern. -/
theorem check_accepts_empty_pattern :
    cstr? (nameBuf 256 "") = some [] ∧
    domainfilter_check samsungHeader ⟨nameBuf 256 "", 1⟩ = 0 ∧
    size_sub (strlen []) 1 = 18446744073709551615 ∧
    charAt [] (size_sub (strlen []) 1) = none ∧
    domainfilter_mt samsungHeader ⟨nameBuf 256 "", 1⟩ (some ⟨some ['a']⟩) = none := by
  refine ⟨by decide, by decide, by decide, by decide, by decide⟩

/-! ## Totality, degenerate patterns and the scratch copy -/

/-- C11, matching over validated rules, at the rule whose name buffer holds 256
terminators with the deny flag and the candidate "example.com":
`domainfilter_check` accepts the rule, its pattern is the empty string, and
`matchHost` reads `rule[rule_len - 1]` at the index 2^64 - 1, which is past the
terminator at index 0, so that the evaluation is not a boolean. -/
theorem validated_empty_pattern_reads_outside :
    domainfilter_check samsungHeader ⟨nameBuf 256 "", 2⟩ = 0 ∧
    cstr? (nameBuf 256 "") = some [] ∧
    strlen [] < size_sub (strlen []) 1 ∧
    matchHost 256 [] "example.com".toList = none ∧
    domainfilter_mt samsungHeader ⟨nameBuf 256 "", 2⟩ (some ⟨some "example.com".toList⟩)
      = none := by
  refine ⟨by decide, by decide, by decide, by decide, by decide⟩

/-- C12 as stated fails: in the pattern "a%b" the wildcard character occurs only
inside, and `matchHost` answers `true` for the host "a%b". -/
theorem interior_wildcard_matches_itself :
    "a%b".toList.head? ≠ some WILDCARD ∧ "a%b".toList.getLast? ≠ some WILDCARD ∧
    WILDCARD ∈ "a%b".toList ∧
    matchHost 256 "a%b".toList "a%b".toList = some true := by
  refine ⟨by decide, by decide, by decide, by decide⟩

/-- C12, amended: for every pattern whose first and last characters are not the
wildcard, so in particular when the wildcard occurs only inside, `matchHost`
compares the whole pattern literally: it returns `true` when the host equals the
pattern byte for byte and `false` for every other host. -/
theorem interior_wildcard_rule (L : Nat) (rule host : CStr) (h0 : rule ≠ [])
    (hhead : rule.head h0 ≠ WILDCARD) (hlast : rule.getLast h0 ≠ WILDCARD)
    (hsz : rule.length < SIZE_MOD) :
    matchHost L rule host = some (decide (host = rule)) ∧
    (host ≠ rule → matchHost L rule host = some false) := by
  obtain ⟨c, t, rfl⟩ : ∃ c t, rule = c :: t := List.exists_cons_of_ne_nil h0
  have h : matchHost L (c :: t) host = some (decide (host = c :: t)) := by
    unfold matchHost
    rw [matchHostTrace_exact_ends L c t host hhead hlast hsz]
    rfl
  refine ⟨h, ?_⟩
  intro hne
  rw [h, decide_eq_false hne]

/-- Witness of the amended C12: the pattern "a%b" against the hosts "a%b" and
"axb". -/
theorem interior_wildcard_rule_witness :
    "a%b".toList ≠ [] ∧ "a%b".toList.length < SIZE_MOD ∧
    matchHost 256 "a%b".toList "a%b".toList = some (decide ("a%b".toList = "a%b".toList)) ∧
    matchHost 256 "a%b".toList "axb".toList = some false :=
  ⟨by decide, by decide,
   (interior_wildcard_rule 256 "a%b".toList "a%b".toList (by decide) (by decide) (by decide)
      (by decide)).1,
   (interior_wildcard_rule 256 "a%b".toList "axb".toList (by decide) (by decide) (by decide)
      (by decide)).2 (by decide)⟩

/-- C13, degenerate double wildcard, at the pattern "%%" and the host "a": the
empty inner string occurs in every host (`strstr` finds it), the pattern "%"
matches the host, and `matchHost` answers `false` for "%%". The call
`strscpy(substrRule, rule+1, 1)` cannot hold the one byte of its source, returns
`-E2BIG`, and line 76 returns before `strstr` is tried. -/
theorem double_wildcard_example :
    (strstr "a".toList []).isSome = true ∧
    matchHost 256 "%".toList "a".toList = some true ∧
    matchHostTrace 256 "%%".toList "a".toList
      = some ⟨Branch.bothEnds, some (1, -E2BIG), false⟩ ∧
    matchHost 256 "%%".toList "a".toList = some false := by
  refine ⟨by decide, by decide, by decide, by decide⟩

/-- C14, the match decision depends only on the pattern and the candidate: two
rules with the same `domain_name` bytes and any two values of the flags get the
same answer of `domainfilter_mt`, for every candidate. -/
theorem match_ignores_flags (k : Header) (name : List Char) (flags1 flags2 : Nat)
    (sk : Option sock) :
    domainfilter_mt k ⟨name, flags1⟩ sk = domainfilter_mt k ⟨name, flags2⟩ sk :=
  rfl

/-- The counts of the scratch copies when every read of `matchHost` lies inside
the pattern: for every pattern shorter than `XT_DOMAINFILTER_NAME_LEN`, a
non-empty pattern makes `matchHost` return, and whenever it returns, the count
passed to `strscpy` is `rule_len - 1` in the both-ends arm and `rule_len` in the
leading and trailing arms, it is at least 1 and at most
`XT_DOMAINFILTER_NAME_LEN`, and a copy with such a count stays inside the buffer
`substrRule` and leaves a terminated string there, whatever its source. -/
theorem scratch_copy_counts_in_bounds (L : Nat) (rule host : CStr)
    (hlen : rule.length < L) (hL : L ≤ INT_MAX) :
    (rule ≠ [] → ∃ t, matchHostTrace L rule host = some t) ∧
    (∀ t, matchHostTrace L rule host = some t →
      (t.branch = Branch.bothEnds → ∃ ret, t.copy = some (rule.length - 1, ret)) ∧
      (t.branch = Branch.leadingOnly → ∃ ret, t.copy = some (rule.length, ret)) ∧
      (t.branch = Branch.trailingOnly → ∃ ret, t.copy = some (rule.length, ret)) ∧
      (∀ count ret, t.copy = some (count, ret) →
        1 ≤ count ∧ count ≤ L ∧
        ∀ src, ∃ r dest, strscpy L src count = some (r, dest) ∧ dest.length + 1 ≤ L)) := by
  have bounds : ∀ count, 1 ≤ count → count ≤ L →
      1 ≤ count ∧ count ≤ L ∧
        ∀ src, ∃ r dest, strscpy L src count = some (r, dest) ∧ dest.length + 1 ≤ L :=
    fun count h1 h2 => ⟨h1, h2, fun src => strscpy_in_bounds L src count h1 h2 hL⟩
  by_cases h0 : rule = []
  · subst h0
    refine ⟨fun h => absurd rfl h, ?_⟩
    intro t ht
    rw [matchHostTrace_nil] at ht
    cases ht
  · have hc := matchHostTrace_cases L rule host h0 hlen hL
    constructor
    · intro _
      rcases hc with ⟨_, h⟩ | ⟨_, _, h⟩ | ⟨_, _, _, h⟩ | ⟨_, _, _, _, h⟩ | h <;>
        exact ⟨_, h⟩
    · intro t ht
      rcases hc with ⟨_, h⟩ | ⟨s, hr, h⟩ | ⟨s, hr, _, h⟩ | ⟨c, s, hr, _, h⟩ | h
      · rw [h] at ht
        obtain rfl := Option.some.inj ht
        refine ⟨fun e => Branch.noConfusion e, fun e => Branch.noConfusion e, fun e => Branch.noConfusion e, ?_⟩
        intro count ret hcr
        cases hcr
      · rw [h] at ht
        obtain rfl := Option.some.inj ht
        subst hr
        simp only [List.length_cons, List.length_append, List.length_nil, Nat.zero_add] at hlen
        refine ⟨fun _ => ⟨-E2BIG, by simp⟩, fun e => Branch.noConfusion e, fun e => Branch.noConfusion e, ?_⟩
        intro count ret hcr
        obtain ⟨rfl, _⟩ := Prod.mk.inj (Option.some.inj hcr)
        exact bounds _ (by omega) (by omega)
      · rw [h] at ht
        obtain rfl := Option.some.inj ht
        subst hr
        simp only [List.length_cons] at hlen
        refine ⟨fun e => Branch.noConfusion e, fun _ => ⟨(s.length : Int), by simp⟩,
          fun e => Branch.noConfusion e, ?_⟩
        intro count ret hcr
        obtain ⟨rfl, _⟩ := Prod.mk.inj (Option.some.inj hcr)
        exact bounds _ (by omega) (by omega)
      · rw [h] at ht
        obtain rfl := Option.some.inj ht
        subst hr
        simp only [List.length_cons, List.length_append, List.length_nil, Nat.zero_add] at hlen
        refine ⟨fun e => Branch.noConfusion e, fun e => Branch.noConfusion e, fun _ => ⟨-E2BIG, by simp⟩, ?_⟩
        intro count ret hcr
        obtain ⟨rfl, _⟩ := Prod.mk.inj (Option.some.inj hcr)
        exact bounds _ (by omega) (by omega)
      · rw [h] at ht
        obtain rfl := Option.some.inj ht
        refine ⟨fun e => Branch.noConfusion e, fun e => Branch.noConfusion e, fun e => Branch.noConfusion e, ?_⟩
        intro count ret hcr
        cases hcr

/-- An instance of the counts of the scratch copies: the pattern
"%.example.com" against the host "foo.example.com"; the count passed to
`strscpy` is 13. -/
theorem scratch_copy_counts_in_bounds_witness :
    "%.example.com".toList.length < 256 ∧ 256 ≤ INT_MAX ∧
    matchHostTrace 256 "%.example.com".toList "foo.example.com".toList
      = some ⟨Branch.leadingOnly, some (13, 12), true⟩ ∧
    (1 ≤ 13 ∧ 13 ≤ 256 ∧
      ∀ src, ∃ r dest, strscpy 256 src 13 = some (r, dest) ∧ dest.length + 1 ≤ 256) :=
  have ht : matchHostTrace 256 "%.example.com".toList "foo.example.com".toList
      = some ⟨Branch.leadingOnly, some (13, 12), true⟩ := by decide
  ⟨by decide, by decide, ht,
   ((scratch_copy_counts_in_bounds 256 "%.example.com".toList "foo.example.com".toList
      (by decide) (by decide)).2 _ ht).2.2.2 13 12 rfl⟩

/-- The counts of the scratch copies on the machine, for non-empty patterns:
whatever byte precedes the pattern, a non-empty pattern shorter than
`XT_DOMAINFILTER_NAME_LEN` makes `matchHost` return, and the count of the copy it
made, if any, lies between 1 and `XT_DOMAINFILTER_NAME_LEN`. -/
theorem scratch_copy_counts_at_nonempty (before : Char) (L : Nat) (rule host : CStr)
    (h0 : rule ≠ []) (hlen : rule.length < L) (hL : L ≤ INT_MAX) :
    ∃ t, matchHostTraceAt before L rule host = some t ∧
      ∀ count ret, t.copy = some (count, ret) → 1 ≤ count ∧ count ≤ L := by
  obtain ⟨hex, hall⟩ := scratch_copy_counts_in_bounds L rule host hlen hL
  obtain ⟨t, ht⟩ := hex h0
  refine ⟨t, ?_, ?_⟩
  · rw [matchHostTraceAt_eq before L rule host h0, ht]
  · intro count ret hc
    have h := (hall t ht).2.2.2 count ret hc
    exact ⟨h.1, h.2.1⟩

/-- C15, scratch copies, at the empty pattern, which is shorter than
`XT_DOMAINFILTER_NAME_LEN` and which `domainfilter_check` accepts, with the byte
'%' before the name buffer and the candidate "a": `rule[rule_len - 1]` reads
that byte at index 2^64 - 1, `matchHost` enters the trailing arm and passes the
count 0 to `strscpy`, below the minimum 1; the copy writes nothing, so
`substrRule` is not left terminated, and returns `-E2BIG`. -/
theorem empty_pattern_copy_count_zero :
    ([] : CStr).length < samsungHeader.XT_DOMAINFILTER_NAME_LEN ∧
    cstr? (nameBuf 256 "") = some [] ∧
    domainfilter_check samsungHeader ⟨nameBuf 256 "", 1⟩ = 0 ∧
    memAt '%' [] (size_sub (strlen []) 1) = some '%' ∧
    matchHostTraceAt '%' 256 [] ['a']
      = some ⟨Branch.trailingOnly, some (0, -E2BIG), false⟩ ∧
    strscpy 256 [] 0 = some (-E2BIG, []) := by
  refine ⟨by decide, by decide, by decide, by decide, by decide, by decide⟩

/-- C16, the fail-closed branch of the copy, at the patterns "%a%" (host "bab")
and "a%" (host "abc"), both shorter than the buffer: `strscpy` is asked for one
character less than its source holds, returns `-E2BIG`, which is negative, and
`matchHost` returns `false` through the branch `ret < 0` without trying the
substring or the prefix test, though "a" occurs in "bab" and "abc" begins with
"a". In the leading arm (pattern "%a", host "ba") the copy returns 1 and the
suffix test is evaluated. -/
theorem copy_failure_branch_example :
    -E2BIG < 0 ∧
    strscpy 256 "a%".toList 2 = some (-E2BIG, "a".toList) ∧
    matchHostTrace 256 "%a%".toList "bab".toList
      = some ⟨Branch.bothEnds, some (2, -E2BIG), false⟩ ∧
    matchHostTrace 256 "a%".toList "abc".toList
      = some ⟨Branch.trailingOnly, some (2, -E2BIG), false⟩ ∧
    matchHostTrace 256 "%a".toList "ba".toList
      = some ⟨Branch.leadingOnly, some (2, 1), true⟩ := by
  refine ⟨by decide, by decide, by decide, by decide, by decide⟩

/-- C17, helper correctness, at the rule "b" and the host made of 'b' followed
by 2^32 bytes 'a': the rule is not an ending substring of the host, and
`endsWith` returns `true`. The offset 2^32 does not fit the `unsigned int` that
holds it; it becomes 0 and "b" is compared with the start of the host. -/
theorem endsWith_long_host_false_positive :
    ¬ (['b'] <:+ ('b' :: List.replicate 4294967296 'a')) ∧
    endsWith ('b' :: List.replicate 4294967296 'a') ['b'] = true :=
  ⟨not_suffix_cons_replicate 'a' 'b' (by decide) 4294967296 (by decide),
   endsWith_wrapped_head 'a' 'b' 4294967296 (by decide)⟩

end DomainFilter
